import Mathlib

/-!
Shallow embedding of the id-gen name→identifier pipeline:
`src/utils/name_processor.py` (cleaning, validation, duplicate analysis),
`src/utils/hash_generator.py` (hash/sequential/uuid identifier assignment),
and the generation step of `src/app.py` (`step_2_review_configure_generate`).

Python strings are modelled as Lean `String`. The character-level
predicates used by the source (`re` classes `\s` and `\w`, the literal
class `[a-zA-Z]`, `str.isdigit`, and ASCII case mapping used by
`str.lower` / `str.title`) are modelled on their ASCII fragment, which is
exact for ASCII text.

The `hashlib` digest functions are external library code; they are
modelled as opaque parameters (a `Digests` bundle).  `uuid.uuid4()` is
external randomness; it is modelled as an oracle `uuids : Nat → String`
indexed by the record position that draws it.  The constants
`SALT_ENABLED` and `DEFAULT_SALT` are imported by
`src/utils/hash_generator.py` but are absent from `src/config.py`;
following the spec's configuration surface (`saltEnabled : bool`,
`defaultSalt : string`) they are modelled as explicit parameters.
-/

/-- Codepoints of the whitespace class `\s` (space, tab, LF, CR, VT, FF). -/
abbrev isSpaceNat (n : Nat) : Prop :=
  n = 32 ∨ n = 9 ∨ n = 10 ∨ n = 13 ∨ n = 11 ∨ n = 12

/-- Codepoints of the ASCII digits `0`-`9`. -/
abbrev isDigitNat (n : Nat) : Prop :=
  48 ≤ n ∧ n ≤ 57

/-- Codepoints of the letter class `[a-zA-Z]`. -/
abbrev isAlphaNat (n : Nat) : Prop :=
  (97 ≤ n ∧ n ≤ 122) ∨ (65 ≤ n ∧ n ≤ 90)

/-- Codepoints of the word class `\w` (ASCII): letters, digits, `_`. -/
abbrev isWordNat (n : Nat) : Prop :=
  isAlphaNat n ∨ isDigitNat n ∨ n = 95

/-- ASCII fragment of the whitespace class `\s` (and `str.strip`). -/
def pyIsSpace (c : Char) : Bool :=
  decide (isSpaceNat c.toNat)

/-- ASCII digits `0`-`9` (`str.isdigit`, ASCII fragment). -/
def pyIsDigit (c : Char) : Bool :=
  decide (isDigitNat c.toNat)

/-- The literal regex class `[a-zA-Z]` used by `_validate_name`. -/
def pyIsAlpha (c : Char) : Bool :=
  decide (isAlphaNat c.toNat)

/-- ASCII fragment of the word class `\w`: letters, digits, underscore. -/
def pyIsWord (c : Char) : Bool :=
  decide (isWordNat c.toNat)

/-- The regex class `[^\w\s]` used to trim outer punctuation. -/
def pyIsPunct (c : Char) : Bool :=
  !(pyIsWord c) && !(pyIsSpace c)

/-- ASCII upper-casing of one character (Python `str.upper` fragment). -/
def pyUpperChar (c : Char) : Char :=
  if 97 ≤ c.toNat ∧ c.toNat ≤ 122 then Char.ofNat (c.toNat - 32) else c

/-- ASCII lower-casing of one character (Python `str.lower` fragment). -/
def pyLowerChar (c : Char) : Char :=
  if 65 ≤ c.toNat ∧ c.toNat ≤ 90 then Char.ofNat (c.toNat + 32) else c

/-- Remove the trailing run of characters satisfying `p`
(the `[^\w\s]+$` / right half of `str.strip` behaviour). -/
def dropTrailing (p : Char → Bool) : List Char → List Char
  | [] => []
  | c :: rest =>
    let r := dropTrailing p rest
    if r.isEmpty && p c then [] else c :: r

/-- Python `str.strip()` on the character list. -/
def pyStripL (l : List Char) : List Char :=
  dropTrailing pyIsSpace (l.dropWhile pyIsSpace)

/-- Worker for `re.sub(r'\s+', ' ', name)`: `inRun` records whether the
previous character was part of a whitespace run already replaced. -/
def collapseAux : Bool → List Char → List Char
  | _, [] => []
  | inRun, c :: rest =>
    if pyIsSpace c then
      if inRun then collapseAux true rest else ' ' :: collapseAux true rest
    else c :: collapseAux false rest

/-- `re.sub(r'\s+', ' ', name)`: collapse each whitespace run to one space. -/
def collapseWs (l : List Char) : List Char :=
  collapseAux false l

/-- `re.sub(r'^[^\w\s]+|[^\w\s]+$', '', name)`: remove the leading and the
trailing run of characters that are neither word characters nor
whitespace. -/
def stripPunct (l : List Char) : List Char :=
  dropTrailing pyIsPunct (l.dropWhile pyIsPunct)

/-- Worker for Python `str.title()`: `prevCased` records whether the
previous character was a letter; a letter after a non-letter is
upper-cased, a letter after a letter is lower-cased. -/
def titleAux : Bool → List Char → List Char
  | _, [] => []
  | prevCased, c :: rest =>
    (if pyIsAlpha c then (if prevCased then pyLowerChar c else pyUpperChar c) else c)
      :: titleAux (pyIsAlpha c) rest

/-- Python `str.title()` (ASCII fragment). -/
def pyTitleL (l : List Char) : List Char :=
  titleAux false l

/-- `str.strip()` on `String`. -/
def pyStripS (s : String) : String :=
  ⟨pyStripL s.data⟩

/-- `str.lower()` on `String` (ASCII fragment). -/
def pyLowerS (s : String) : String :=
  ⟨s.data.map pyLowerChar⟩

/-- `NameProcessor._clean_name` from `src/utils/name_processor.py`:
empty in, empty out; otherwise strip outer whitespace, collapse internal
whitespace, trim outer punctuation, then title-case. -/
def clean_name (s : String) : String :=
  if s.data.isEmpty then ""
  else ⟨pyTitleL (stripPunct (collapseWs (pyStripL s.data)))⟩

/-- `NameProcessor._validate_name` from `src/utils/name_processor.py`:
the early-return chain of rejection tests. -/
def validate_name (s : String) : Bool :=
  if s.data.isEmpty || (pyStripL s.data).length < 1 then false
  else if !s.data.isEmpty && s.data.all pyIsDigit then false
  else if !s.data.isEmpty && s.data.all pyIsPunct then false
  else if s.data.length < 2 then false
  else if !(s.data.any pyIsAlpha) then false
  else true

/-- One duplicate group of `NameProcessor.process_names`. -/
structure NameGroup where
  name : String
  count : Nat
  indices : List Nat
deriving DecidableEq

/-- Result record of `NameProcessor.process_names`. -/
structure ProcessResult where
  unique_names : List String
  duplicate_groups : List NameGroup
  invalid_names : List String
  total_names : Nat
  unique_count : Nat
  duplicate_count : Nat
  invalid_count : Nat
  all_cleaned_names : List String

/-- Distinct keys of a list in first-occurrence order (the iteration
order of Python's `Counter`, whose keys follow insertion order). -/
def distinctAux (seen : List String) : List String → List String
  | [] => []
  | x :: xs => if seen.contains x then distinctAux seen xs else x :: distinctAux (x :: seen) xs

/-- Keys of `Counter(cleaned_names)` in iteration order. -/
def counterKeys (l : List String) : List String :=
  distinctAux [] l

/-- `[i for i, n in enumerate(cleaned_names) if n == name]`. -/
def indicesOf (l : List String) (x : String) : List Nat :=
  (List.range l.length).filter (fun i => l[i]? == some x)

/-- `NameProcessor.process_names` from `src/utils/name_processor.py`. -/
def process_names (names : List String) : ProcessResult :=
  let cleaned_names := names.filterMap (fun n =>
    let c := clean_name n
    if validate_name c then some c else none)
  let invalid_names := names.filter (fun n => !(validate_name (clean_name n)))
  let keys := counterKeys cleaned_names
  let unique_names := keys.filter (fun n => cleaned_names.count n == 1)
  let duplicate_groups := keys.filterMap (fun n =>
    let k := cleaned_names.count n
    if 2 ≤ k then some ⟨n, k, indicesOf cleaned_names n⟩ else none)
  { unique_names := unique_names
    duplicate_groups := duplicate_groups
    invalid_names := invalid_names
    total_names := cleaned_names.length
    unique_count := unique_names.length
    duplicate_count := duplicate_groups.length
    invalid_count := invalid_names.length
    all_cleaned_names := cleaned_names }

/-- The `hashlib` digest functions used by `HashGenerator`, modelled as
opaque string functions (external library code). -/
structure Digests where
  md5 : String → String
  sha256 : String → String
  sha1 : String → String

/-- The mutable state of a `HashGenerator` instance: `algorithm`, `salt`
and the `hash_cache` dictionary (modelled as an association list in
insertion order). -/
structure HashGen where
  algorithm : String
  salt : String
  hash_cache : List (String × String)
deriving DecidableEq

/-- Dictionary lookup in the `hash_cache`. -/
def cacheLookup : List (String × String) → String → Option String
  | [], _ => none
  | (k, v) :: rest, n => if k == n then some v else cacheLookup rest n

/-- The `if/elif/else` algorithm dispatch of `generate_hash`
(unknown algorithm defaults to MD5). -/
def selectDigest (D : Digests) (alg : String) : String → String :=
  if alg == "md5" then D.md5
  else if alg == "sha256" then D.sha256
  else if alg == "sha1" then D.sha1
  else D.md5

/-- The `hash_input` string built by `generate_hash`:
`name.strip().lower()`, prefixed by the salt when salting is enabled and
the salt is non-empty. -/
def hashInputOf (saltEnabled : Bool) (salt : String) (name : String) : String :=
  let base := pyLowerS (pyStripS name)
  if saltEnabled && salt != "" then salt ++ base else base

/-- The digest `generate_hash` computes on a cache miss. -/
def pureHash (D : Digests) (saltEnabled : Bool) (alg salt name : String) : String :=
  selectDigest D alg (hashInputOf saltEnabled salt name)

/-- `HashGenerator.generate_hash` from `src/utils/hash_generator.py`:
return the cached value if present, else compute the digest of the
salted, stripped, lower-cased name and cache it. -/
def generate_hash (D : Digests) (saltEnabled : Bool) (g : HashGen) (name : String) :
    String × HashGen :=
  match cacheLookup g.hash_cache name with
  | some v => (v, g)
  | none =>
    let v := pureHash D saltEnabled g.algorithm g.salt name
    (v, { g with hash_cache := g.hash_cache ++ [(name, v)] })

/-- Fuel-bounded worker for decimal digit rendering; the fuel always
dominates the argument, so the fuel-out branch is never taken. -/
def natDigitsAux : Nat → Nat → List Char
  | 0, _ => []
  | fuel+1, n =>
    if n < 10 then [Char.ofNat (48 + n)]
    else natDigitsAux fuel (n / 10) ++ [Char.ofNat (48 + n % 10)]

/-- Decimal digits of a natural number, most significant first
(Python `str(n)` / the digits of `f-string` formatting). -/
def natDigits (n : Nat) : List Char :=
  natDigitsAux (n + 1) n

/-- Python `str(n)` for a natural number. -/
def natToString (n : Nat) : String :=
  ⟨natDigits n⟩

/-- Python `f"{n:03d}"`: decimal rendering zero-padded to width ≥ 3. -/
def pad3 (n : Nat) : String :=
  ⟨List.replicate (3 - (natDigits n).length) '0' ++ natDigits n⟩

/-- Python `s.replace('-', '')`. -/
def removeDashes (s : String) : String :=
  ⟨s.data.filter (fun c => c != '-')⟩

/-- The `while True` retry loop of `HashGenerator.generate_unique_hash`:
`counter` is the numeric suffix about to be tried, `fuel` the number of
attempts left before `counter` would exceed 1000; when the attempts are
exhausted the loop returns the random fallback token (`uuid.uuid4()`
with dashes removed, modelled as the `fallbackTok` parameter). -/
def uniqueLoop (D : Digests) (saltEnabled : Bool) (name : String) (existing : List String)
    (fallbackTok : String) : HashGen → Nat → Nat → String × HashGen
  | g, _, 0 => (fallbackTok, g)
  | g, counter, fuel+1 =>
    let modified := name ++ "_" ++ natToString counter
    let p := generate_hash D saltEnabled g modified
    if existing.contains p.1 then
      uniqueLoop D saltEnabled name existing fallbackTok p.2 (counter + 1) fuel
    else p

/-- `HashGenerator.generate_unique_hash` from `src/utils/hash_generator.py`. -/
def generate_unique_hash (D : Digests) (saltEnabled : Bool) (g : HashGen) (name : String)
    (existing : List String) (fallbackTok : String) : String × HashGen :=
  let p := generate_hash D saltEnabled g name
  if existing.contains p.1 then uniqueLoop D saltEnabled name existing fallbackTok p.2 1 1000
  else p

/-- One output record (`{'Name': ..., 'ID': ...}`). -/
structure Record where
  Name : String
  ID : String
deriving DecidableEq

/-- Insert into a Python dict modelled as an association list:
overwrite in place if the key exists, else append. -/
def dictInsert (d : List (String × String)) (k v : String) : List (String × String) :=
  if (cacheLookup d k).isSome then d.map (fun p => if p.1 == k then (k, v) else p)
  else d ++ [(k, v)]

/-- `HashGenerator.generate_sequential_ids` from
`src/utils/hash_generator.py`: a dict mapping each name to
`pre + f"{i:03d}"` for its 1-based position (later duplicates
overwrite earlier entries). -/
def generate_sequential_ids (names : List String) (pre : String) : List (String × String) :=
  names.enum.foldl (fun d p => dictInsert d p.2 (pre ++ pad3 (p.1 + 1))) []

/-- The per-name loop of `HashGenerator.create_name_id_mapping`:
`existing` is the `existing_ids` set, `i` the number of mappings built so
far. -/
def createLoop (D : Digests) (saltEnabled : Bool) (uuids : Nat → String) (idType : String) :
    HashGen → List String → Nat → List String → List Record × HashGen
  | g, _, _, [] => ([], g)
  | g, existing, i, name :: rest =>
    let p : String × HashGen :=
      if idType == "hash" then
        generate_unique_hash D saltEnabled g name existing (removeDashes (uuids i))
      else if idType == "sequential" then ("ID" ++ pad3 (i + 1), g)
      else if idType == "uuid" then (uuids i, g)
      else generate_unique_hash D saltEnabled g name existing (removeDashes (uuids i))
    let q := createLoop D saltEnabled uuids idType p.2 (existing ++ [p.1]) (i + 1) rest
    (⟨name, p.1⟩ :: q.1, q.2)

/-- `HashGenerator.create_name_id_mapping` from
`src/utils/hash_generator.py`. -/
def create_name_id_mapping (D : Digests) (saltEnabled : Bool) (uuids : Nat → String)
    (g : HashGen) (names : List String) (idType : String) : List Record × HashGen :=
  createLoop D saltEnabled uuids idType g [] 0 names

/-- `HashGenerator.set_salt`: store the new salt and clear the cache. -/
def set_salt (g : HashGen) (salt : String) : HashGen :=
  { g with salt := salt, hash_cache := [] }

/-- `HashGenerator.clear_cache`. -/
def clear_cache (g : HashGen) : HashGen :=
  { g with hash_cache := [] }

/-- The three values of the `id_type` select box in `src/app.py`. -/
inductive IdType where
  | hash
  | sequential
  | uuid
deriving DecidableEq

/-- `final_names` in `src/app.py`: the stripped, non-empty entries of the
curated (editable) name list. -/
def final_names_of (l : List String) : List String :=
  l.filterMap (fun n => let t := pyStripS n; if t == "" then none else some t)

/-- The per-name generation loop inside `step_2_review_configure_generate`
of `src/app.py`: hash ids come from `generate_hash` directly (so repeated
names share one id), sequential ids are `f"ID{i+1:03d}"`, uuid ids are
fresh draws from the oracle. -/
def step2Loop (D : Digests) (saltEnabled : Bool) (uuids : Nat → String) (idType : IdType) :
    HashGen → Nat → List String → List Record × HashGen
  | g, _, [] => ([], g)
  | g, i, name :: rest =>
    let p : String × HashGen :=
      match idType with
      | .hash => generate_hash D saltEnabled g name
      | .sequential => ("ID" ++ pad3 (i + 1), g)
      | .uuid => (uuids i, g)
    let q := step2Loop D saltEnabled uuids idType p.2 (i + 1) rest
    (⟨name, p.1⟩ :: q.1, q.2)

/-- The "Generate IDs" action of `step_2_review_configure_generate` in
`src/app.py`: with an empty curated list it reports "No names to
process!" and produces nothing; otherwise it runs the generation loop on
a `HashGenerator` fresh from `main()` (algorithm `md5` from config,
reassigned to the selected algorithm when the hash strategy is chosen). -/
def step_2_generate_ids (D : Digests) (saltEnabled : Bool) (uuids : Nat → String)
    (defaultSalt : String) (algorithm : String) (finalNames : List String) (idType : IdType) :
    Except String (List Record) :=
  if finalNames.isEmpty then Except.error "No names to process!"
  else
    let g0 : HashGen :=
      { algorithm := match idType with | .hash => algorithm | _ => "md5"
        salt := defaultSalt
        hash_cache := [] }
    Except.ok (step2Loop D saltEnabled uuids idType g0 0 finalNames).1

/-- Modelled from the spec (for comparison in claim C7 only): "uppercase
the first character of each space-separated token, lowercase the rest" —
title casing in which only the space character starts a new token. -/
def specTitleAux : Bool → List Char → List Char
  | _, [] => []
  | atStart, c :: rest =>
    if c == ' ' then ' ' :: specTitleAux true rest
    else (if atStart then pyUpperChar c else pyLowerChar c) :: specTitleAux false rest

/-- Modelled from the spec: space-token-only title casing on `String`. -/
def specTitleS (s : String) : String :=
  ⟨specTitleAux true s.data⟩

/-- Python `str.title()` on `String`. -/
def pyTitleS (s : String) : String :=
  ⟨pyTitleL s.data⟩

/-- Value of a decimal digit list, most significant first (left inverse
of `natDigits`, used to prove identifier distinctness). -/
def parseNat (l : List Char) : Nat :=
  l.foldl (fun a c => 10 * a + (c.toNat - 48)) 0

/-- A string is lowercase hexadecimal: digits and `a`-`f` only. -/
def isLowerHex (s : String) : Bool :=
  s.data.all (fun c => pyIsDigit c || decide (97 ≤ c.toNat ∧ c.toNat ≤ 102))

/-- Every cached entry agrees with the digest `generate_hash` would
compute for its key under the generator's current algorithm and salt.
A fresh generator (empty cache) is trivially consistent, and
`generate_hash` preserves consistency. -/
def cacheConsistent (D : Digests) (saltEnabled : Bool) (g : HashGen) : Prop :=
  ∀ n v, cacheLookup g.hash_cache n = some v → v = pureHash D saltEnabled g.algorithm g.salt n

/-- No two adjacent `true` entries (used on whitespace masks). -/
def noTwo : List Bool → Bool
  | a :: b :: r => !(a && b) && noTwo (b :: r)
  | _ => true

/-- No two adjacent whitespace characters. -/
def noDouble (l : List Char) : Bool :=
  noTwo (l.map pyIsSpace)

/-- Every whitespace character in the list is a plain space. -/
def wsOnly (l : List Char) : Prop :=
  ∀ c ∈ l, pyIsSpace c = true → c = ' '

/-- A concrete injective digest bundle used to exhibit counterexamples
and witnesses. -/
def D0 : Digests :=
  ⟨fun s => "#m" ++ s, fun s => "#s" ++ s, fun s => "#a" ++ s⟩

/-- A concrete injective uuid oracle used in witnesses. -/
def U1 : Nat → String :=
  fun i => pad3 i

/-- A concrete digest bundle with lowercase-hexadecimal outputs, used in
witnesses. -/
def DW : Digests :=
  ⟨fun _ => "0a", fun _ => "0b", fun _ => "0c"⟩

-- Character-level lemmas --------------------------------------------------

lemma toNat_ofNat_small {n : Nat} (h : n < 55296) : (Char.ofNat n).toNat = n := by
  have hv : n.isValidChar := Or.inl h
  simp [Char.ofNat, hv, Char.ofNatAux, Char.toNat]
  rfl

lemma toNat_pyUpperChar (c : Char) :
    (pyUpperChar c).toNat = if 97 ≤ c.toNat ∧ c.toNat ≤ 122 then c.toNat - 32 else c.toNat := by
  unfold pyUpperChar
  split
  · next h => exact toNat_ofNat_small (by omega)
  · rfl

lemma toNat_pyLowerChar (c : Char) :
    (pyLowerChar c).toNat = if 65 ≤ c.toNat ∧ c.toNat ≤ 90 then c.toNat + 32 else c.toNat := by
  unfold pyLowerChar
  split
  · next h => exact toNat_ofNat_small (by omega)
  · rfl

lemma pyIsAlpha_pyUpperChar (c : Char) : pyIsAlpha (pyUpperChar c) = pyIsAlpha c := by
  unfold pyIsAlpha
  rw [decide_eq_decide, toNat_pyUpperChar]
  simp only [isAlphaNat]
  split <;> omega

lemma pyIsAlpha_pyLowerChar (c : Char) : pyIsAlpha (pyLowerChar c) = pyIsAlpha c := by
  unfold pyIsAlpha
  rw [decide_eq_decide, toNat_pyLowerChar]
  simp only [isAlphaNat]
  split <;> omega

lemma pyIsSpace_pyUpperChar (c : Char) : pyIsSpace (pyUpperChar c) = pyIsSpace c := by
  unfold pyIsSpace
  rw [decide_eq_decide, toNat_pyUpperChar]
  simp only [isSpaceNat]
  split <;> omega

lemma pyIsSpace_pyLowerChar (c : Char) : pyIsSpace (pyLowerChar c) = pyIsSpace c := by
  unfold pyIsSpace
  rw [decide_eq_decide, toNat_pyLowerChar]
  simp only [isSpaceNat]
  split <;> omega

lemma pyIsWord_pyUpperChar (c : Char) : pyIsWord (pyUpperChar c) = pyIsWord c := by
  unfold pyIsWord
  rw [decide_eq_decide, toNat_pyUpperChar]
  simp only [isWordNat, isAlphaNat, isDigitNat]
  split <;> omega

lemma pyIsWord_pyLowerChar (c : Char) : pyIsWord (pyLowerChar c) = pyIsWord c := by
  unfold pyIsWord
  rw [decide_eq_decide, toNat_pyLowerChar]
  simp only [isWordNat, isAlphaNat, isDigitNat]
  split <;> omega

lemma pyIsPunct_pyUpperChar (c : Char) : pyIsPunct (pyUpperChar c) = pyIsPunct c := by
  unfold pyIsPunct
  rw [pyIsWord_pyUpperChar, pyIsSpace_pyUpperChar]

lemma pyIsPunct_pyLowerChar (c : Char) : pyIsPunct (pyLowerChar c) = pyIsPunct c := by
  unfold pyIsPunct
  rw [pyIsWord_pyLowerChar, pyIsSpace_pyLowerChar]

lemma pyUpperChar_pyUpperChar (c : Char) : pyUpperChar (pyUpperChar c) = pyUpperChar c := by
  unfold pyUpperChar
  by_cases h : 97 ≤ c.toNat ∧ c.toNat ≤ 122
  · have h1 : c.toNat - 32 < 55296 := by omega
    simp [h, toNat_ofNat_small h1]
    omega
  · simp [h]

lemma pyLowerChar_pyLowerChar (c : Char) : pyLowerChar (pyLowerChar c) = pyLowerChar c := by
  unfold pyLowerChar
  by_cases h : 65 ≤ c.toNat ∧ c.toNat ≤ 90
  · have h1 : c.toNat + 32 < 55296 := by omega
    simp [h, toNat_ofNat_small h1]
    omega
  · simp [h]

lemma not_alpha_of_space {c : Char} (h : pyIsSpace c = true) : pyIsAlpha c = false := by
  unfold pyIsSpace at h
  unfold pyIsAlpha
  simp only [isSpaceNat] at h
  simp only [isAlphaNat]
  simp only [decide_eq_true_eq] at h
  simp only [decide_eq_false_iff_not]
  omega

lemma not_alpha_of_punct {c : Char} (h : pyIsPunct c = true) : pyIsAlpha c = false := by
  unfold pyIsPunct pyIsWord at h
  unfold pyIsAlpha
  simp only [Bool.and_eq_true, Bool.not_eq_true', decide_eq_false_iff_not, isWordNat] at h
  simp only [isAlphaNat] at h ⊢
  simp only [decide_eq_false_iff_not]
  tauto

-- Decimal rendering lemmas -------------------------------------------------

lemma natDigitsAux_irrel : ∀ (n fuel fuel' : Nat), n < fuel → n < fuel' →
    natDigitsAux fuel n = natDigitsAux fuel' n := by
  intro n
  induction n using Nat.strong_induction_on with
  | _ n ih =>
    intro fuel fuel' h h'
    cases fuel with
    | zero => omega
    | succ f =>
      cases fuel' with
      | zero => omega
      | succ f' =>
        simp only [natDigitsAux]
        by_cases h10 : n < 10
        · simp [h10]
        · have hdiv : n / 10 < n := Nat.div_lt_self (by omega) (by omega)
          simp only [h10, if_false]
          rw [ih (n / 10) hdiv f f' (by omega) (by omega)]

lemma natDigits_unfold (n : Nat) :
    natDigits n = if n < 10 then [Char.ofNat (48 + n)]
      else natDigits (n / 10) ++ [Char.ofNat (48 + n % 10)] := by
  by_cases h10 : n < 10
  · rw [if_pos h10]
    simp [natDigits, natDigitsAux, h10]
  · rw [if_neg h10]
    have hdiv : n / 10 < n := Nat.div_lt_self (by omega) (by omega)
    have h1 : natDigits n = natDigitsAux n (n / 10) ++ [Char.ofNat (48 + n % 10)] := by
      simp [natDigits, natDigitsAux, h10]
    rw [h1, natDigitsAux_irrel (n / 10) n (n / 10 + 1) hdiv (by omega)]
    rfl

lemma natDigits_foldl (n : Nat) : ∀ acc : Nat,
    (natDigits n).foldl (fun a c => 10 * a + (c.toNat - 48)) acc
      = acc * 10 ^ (natDigits n).length + n := by
  induction n using Nat.strong_induction_on with
  | _ n ih =>
    intro acc
    by_cases h : n < 10
    · rw [natDigits_unfold, if_pos h]
      simp only [List.foldl_cons, List.foldl_nil, List.length_cons,
        List.length_nil, toNat_ofNat_small (by omega : 48 + n < 55296), Nat.zero_add,
        pow_one]
      omega
    · rw [natDigits_unfold, if_neg h]
      simp only [List.foldl_append, List.foldl_cons, List.foldl_nil,
        List.length_append, List.length_cons, List.length_nil,
        toNat_ofNat_small (by omega : 48 + n % 10 < 55296)]
      rw [ih (n / 10) (Nat.div_lt_self (by omega) (by omega)) acc]
      have hdm : 10 * (n / 10) + n % 10 = n := Nat.div_add_mod n 10
      rw [show (natDigits (n / 10)).length + 0 + 1 = (natDigits (n / 10)).length + 1 by omega,
        pow_succ,
        show acc * (10 ^ (natDigits (n / 10)).length * 10)
            = 10 * (acc * 10 ^ (natDigits (n / 10)).length) by ring]
      generalize acc * 10 ^ (natDigits (n / 10)).length = t
      omega

lemma parseNat_natDigits (n : Nat) : parseNat (natDigits n) = n := by
  unfold parseNat
  have h := natDigits_foldl n 0
  simpa using h

lemma parseNat_pad3 (n : Nat) : parseNat (pad3 n).data = n := by
  have hz : ∀ k, (List.replicate k '0').foldl (fun a c => 10 * a + (c.toNat - 48)) 0 = 0 := by
    intro k
    induction k with
    | zero => rfl
    | succ k ihk => simpa [List.replicate_succ] using ihk
  unfold pad3 parseNat
  simp only [List.foldl_append, hz]
  have h := natDigits_foldl n 0
  simpa using h

lemma pad3_inj : Function.Injective pad3 := by
  intro a b h
  have h2 := congrArg (fun s => parseNat s.data) h
  simpa [parseNat_pad3] using h2

-- String helpers -----------------------------------------------------------

lemma string_data_inj {a b : String} (h : a.data = b.data) : a = b :=
  String.ext h

lemma string_append_left_cancel {s a b : String} (h : s ++ a = s ++ b) : a = b := by
  have h2 : s.data ++ a.data = s.data ++ b.data := by
    have := congrArg String.data h
    simpa [String.data_append] using this
  exact string_data_inj (List.append_cancel_left h2)

-- Hash generator lemmas ----------------------------------------------------

lemma cacheLookup_append (l1 l2 : List (String × String)) (n : String) :
    cacheLookup (l1 ++ l2) n =
      (match cacheLookup l1 n with | some v => some v | none => cacheLookup l2 n) := by
  induction l1 with
  | nil => rfl
  | cons p rest ih =>
    cases p with
    | mk k v =>
      simp only [List.cons_append, cacheLookup]
      by_cases h : k == n
      · simp [h]
      · simp [h, ih]

lemma cacheConsistent_nil (D : Digests) (saltE : Bool) (a s : String) :
    cacheConsistent D saltE ⟨a, s, []⟩ := by
  intro n v h
  simp [cacheLookup] at h

lemma generate_hash_fst {D : Digests} {saltE : Bool} {g : HashGen} (n : String)
    (hc : cacheConsistent D saltE g) :
    (generate_hash D saltE g n).1 = pureHash D saltE g.algorithm g.salt n := by
  unfold generate_hash
  cases hl : cacheLookup g.hash_cache n with
  | none => simp [hl]
  | some v => simpa [hl] using hc n v hl

lemma generate_hash_algorithm (D : Digests) (saltE : Bool) (g : HashGen) (n : String) :
    (generate_hash D saltE g n).2.algorithm = g.algorithm := by
  unfold generate_hash
  cases hl : cacheLookup g.hash_cache n <;> simp [hl]

lemma generate_hash_salt (D : Digests) (saltE : Bool) (g : HashGen) (n : String) :
    (generate_hash D saltE g n).2.salt = g.salt := by
  unfold generate_hash
  cases hl : cacheLookup g.hash_cache n <;> simp [hl]

lemma generate_hash_preserves {D : Digests} {saltE : Bool} {g : HashGen} (n : String)
    (hc : cacheConsistent D saltE g) :
    cacheConsistent D saltE (generate_hash D saltE g n).2 := by
  unfold generate_hash
  cases hl : cacheLookup g.hash_cache n with
  | some v => simpa [hl] using hc
  | none =>
    simp only [hl]
    intro m w hm
    simp only at hm
    rw [cacheLookup_append] at hm
    cases hl2 : cacheLookup g.hash_cache m with
    | some u =>
      rw [hl2] at hm
      simp only at hm
      injection hm with h3
      exact h3 ▸ hc m u hl2
    | none =>
      rw [hl2] at hm
      simp only [cacheLookup] at hm
      by_cases he : n == m
      · have heq : n = m := by simpa using he
        rw [he] at hm
        simp at hm
        subst heq
        exact hm.symm
      · simp [he] at hm

-- Generation loop lemmas ---------------------------------------------------

lemma step2Loop_length (D : Digests) (saltE : Bool) (uuids : Nat → String) (idType : IdType) :
    ∀ (names : List String) (g : HashGen) (i : Nat),
      (step2Loop D saltE uuids idType g i names).1.length = names.length := by
  intro names
  induction names with
  | nil => intro g i; rfl
  | cons n rest ih => intro g i; cases idType <;> simp [step2Loop, ih]

lemma step2Loop_names (D : Digests) (saltE : Bool) (uuids : Nat → String) (idType : IdType) :
    ∀ (names : List String) (g : HashGen) (i : Nat),
      (step2Loop D saltE uuids idType g i names).1.map Record.Name = names := by
  intro names
  induction names with
  | nil => intro g i; rfl
  | cons n rest ih => intro g i; cases idType <;> simp [step2Loop, ih]

lemma step2Loop_hash (D : Digests) (saltE : Bool) (uuids : Nat → String) :
    ∀ (names : List String) (g : HashGen) (i : Nat), cacheConsistent D saltE g →
      (step2Loop D saltE uuids IdType.hash g i names).1
        = names.map (fun n => ⟨n, pureHash D saltE g.algorithm g.salt n⟩) := by
  intro names
  induction names with
  | nil => intro g i _; rfl
  | cons n rest ih =>
    intro g i hc
    simp only [step2Loop, List.map_cons]
    rw [ih _ (i + 1) (generate_hash_preserves n hc)]
    rw [generate_hash_fst n hc, generate_hash_algorithm, generate_hash_salt]

lemma step2Loop_seq_ids (D : Digests) (saltE : Bool) (uuids : Nat → String) :
    ∀ (names : List String) (g : HashGen) (i : Nat),
      (step2Loop D saltE uuids IdType.sequential g i names).1.map Record.ID
        = (List.range names.length).map (fun j => "ID" ++ pad3 (i + j + 1)) := by
  intro names
  induction names with
  | nil => intro g i; rfl
  | cons n rest ih =>
    intro g i
    have hmap : (List.range rest.length).map ((fun j => "ID" ++ pad3 (i + j + 1)) ∘ Nat.succ)
        = (List.range rest.length).map (fun j => "ID" ++ pad3 (i + 1 + j + 1)) := by
      apply List.map_congr_left
      intro j _
      simp only [Function.comp_apply, Nat.succ_eq_add_one]
      rw [show i + (j + 1) + 1 = i + 1 + j + 1 by omega]
    simp only [step2Loop, List.map_cons, List.length_cons, List.range_succ_eq_map,
      List.map_map]
    rw [ih _ (i + 1), hmap, show i + 0 + 1 = i + 1 by omega]

lemma step2Loop_uuid_ids (D : Digests) (saltE : Bool) (uuids : Nat → String) :
    ∀ (names : List String) (g : HashGen) (i : Nat),
      (step2Loop D saltE uuids IdType.uuid g i names).1.map Record.ID
        = (List.range names.length).map (fun j => uuids (i + j)) := by
  intro names
  induction names with
  | nil => intro g i; rfl
  | cons n rest ih =>
    intro g i
    have hmap : (List.range rest.length).map ((fun j => uuids (i + j)) ∘ Nat.succ)
        = (List.range rest.length).map (fun j => uuids (i + 1 + j)) := by
      apply List.map_congr_left
      intro j _
      simp only [Function.comp_apply, Nat.succ_eq_add_one]
      rw [show i + (j + 1) = i + 1 + j by omega]
    simp only [step2Loop, List.map_cons, List.length_cons, List.range_succ_eq_map,
      List.map_map]
    rw [ih _ (i + 1), hmap, show i + 0 = i by omega]

lemma createLoop_length (D : Digests) (saltE : Bool) (uuids : Nat → String) (idType : String) :
    ∀ (names : List String) (g : HashGen) (existing : List String) (i : Nat),
      (createLoop D saltE uuids idType g existing i names).1.length = names.length := by
  intro names
  induction names with
  | nil => intro g existing i; rfl
  | cons n rest ih =>
    intro g existing i
    simp only [createLoop, List.length_cons]
    rw [ih]

lemma createLoop_seq_ids (D : Digests) (saltE : Bool) (uuids : Nat → String) :
    ∀ (names : List String) (g : HashGen) (existing : List String) (i : Nat),
      (createLoop D saltE uuids "sequential" g existing i names).1.map Record.ID
        = (List.range names.length).map (fun j => "ID" ++ pad3 (i + j + 1)) := by
  intro names
  induction names with
  | nil => intro g existing i; rfl
  | cons n rest ih =>
    intro g existing i
    have hmap : (List.range rest.length).map ((fun j => "ID" ++ pad3 (i + j + 1)) ∘ Nat.succ)
        = (List.range rest.length).map (fun j => "ID" ++ pad3 (i + 1 + j + 1)) := by
      apply List.map_congr_left
      intro j _
      simp only [Function.comp_apply, Nat.succ_eq_add_one]
      rw [show i + (j + 1) + 1 = i + 1 + j + 1 by omega]
    simp only [createLoop, List.map_cons, List.length_cons, List.range_succ_eq_map,
      List.map_map, show (("sequential" : String) == "hash") = false from by decide,
      show (("sequential" : String) == "sequential") = true from by decide,
      Bool.false_eq_true, if_false, if_true]
    rw [ih, hmap, show i + 0 + 1 = i + 1 by omega]

/-- C6: invoking the generation step of `src/app.py` with an empty curated
name list reports the error "No names to process!" to the caller and
produces no records (no partial output). -/
theorem C6_empty_batch_rejected (D : Digests) (saltE : Bool) (uuids : Nat → String)
    (defaultSalt algorithm : String) (idType : IdType) :
    step_2_generate_ids D saltE uuids defaultSalt algorithm [] idType
      = Except.error "No names to process!" := rfl

/-- C5: under the sequential strategy the k-th output record (0-based k)
carries identifier `"ID" ++ pad3 (k+1)` — the prefix "ID" plus the
1-based index zero-padded to width 3 — independently of name content and
duplicates, both in `HashGenerator.create_name_id_mapping` and in the
app's generation step; the counter advances per output record. -/
theorem C5_sequential_ids (D : Digests) (saltE : Bool) (uuids : Nat → String)
    (g : HashGen) (names : List String) (defaultSalt algorithm : String) (k : Nat)
    (hk : k < names.length) :
    ((create_name_id_mapping D saltE uuids g names "sequential").1.map Record.ID)[k]?
        = some ("ID" ++ pad3 (k + 1))
    ∧ ∀ recs, step_2_generate_ids D saltE uuids defaultSalt algorithm names IdType.sequential
        = Except.ok recs → (recs.map Record.ID)[k]? = some ("ID" ++ pad3 (k + 1)) := by
  constructor
  · rw [create_name_id_mapping, createLoop_seq_ids]
    rw [List.getElem?_map]
    simp [List.getElem?_range, hk]
  · intro recs hr
    unfold step_2_generate_ids at hr
    have hne : names.isEmpty = false := by
      cases names with
      | nil => simp at hk
      | cons a l => rfl
    rw [hne] at hr
    simp only [Bool.false_eq_true, if_false, Except.ok.injEq] at hr
    subst hr
    rw [step2Loop_seq_ids]
    rw [List.getElem?_map]
    simp [List.getElem?_range, hk]

/-- Witness for C5 at the concrete input ["Ann", "Ann", "Bob"], k = 2. -/
theorem C5_sequential_ids_witness :
    2 < 3 ∧
    ((((create_name_id_mapping D0 false U1 ⟨"md5", "", []⟩ ["Ann", "Ann", "Bob"]
          "sequential").1.map Record.ID)[2]? = some ("ID" ++ pad3 3))
      ∧ ∀ recs, step_2_generate_ids D0 false U1 "" "md5" ["Ann", "Ann", "Bob"]
          IdType.sequential = Except.ok recs
          → (recs.map Record.ID)[2]? = some ("ID" ++ pad3 3)) :=
  ⟨by decide,
    C5_sequential_ids D0 false U1 ⟨"md5", "", []⟩ ["Ann", "Ann", "Bob"] "" "md5" 2 (by decide)⟩

/-- C10: when the cache already maps a name to a digest, `generate_hash`
returns that cached digest unchanged regardless of the current
`algorithm` field (reassigning the attribute, as the app does before a
run, does not invalidate previously cached hashes), whereas `set_salt`
stores the new salt and clears the cache. -/
theorem C10_cache_ignores_algorithm (D : Digests) (saltE : Bool) (g : HashGen)
    (n v a s2 : String) (h : cacheLookup g.hash_cache n = some v) :
    (generate_hash D saltE { g with algorithm := a } n).1 = v
    ∧ (set_salt g s2).hash_cache = [] ∧ (set_salt g s2).salt = s2 := by
  refine ⟨?_, rfl, rfl⟩
  unfold generate_hash
  simp only
  rw [show ({ g with algorithm := a } : HashGen).hash_cache = g.hash_cache from rfl, h]

/-- Witness for C10 at a concrete cached generator. -/
theorem C10_cache_ignores_algorithm_witness :
    cacheLookup (⟨"md5", "", [("Ann", "X")]⟩ : HashGen).hash_cache "Ann" = some "X"
    ∧ ((generate_hash D0 false
          { (⟨"md5", "", [("Ann", "X")]⟩ : HashGen) with algorithm := "sha256" } "Ann").1 = "X"
        ∧ (set_salt ⟨"md5", "", [("Ann", "X")]⟩ "s2").hash_cache = []
        ∧ (set_salt ⟨"md5", "", [("Ann", "X")]⟩ "s2").salt = "s2") :=
  ⟨by decide,
    C10_cache_ignores_algorithm D0 false ⟨"md5", "", [("Ann", "X")]⟩ "Ann" "X" "sha256" "s2"
      (by decide)⟩

/-- C3: content-hash generation is deterministic — two names equal after
trimming and lower-casing hash to the identical output under the same
algorithm and salt, on any two (same or fresh) consistently cached
generator instances, and the output is lowercase hexadecimal whenever the
selected digest function renders lowercase hexadecimal. -/
theorem C3_hash_deterministic (D : Digests) (saltE : Bool) (alg salt : String)
    (g1 g2 : HashGen) (n1 n2 : String)
    (hc1 : cacheConsistent D saltE g1) (hc2 : cacheConsistent D saltE g2)
    (ha1 : g1.algorithm = alg) (ha2 : g2.algorithm = alg)
    (hs1 : g1.salt = salt) (hs2 : g2.salt = salt)
    (heq : pyLowerS (pyStripS n1) = pyLowerS (pyStripS n2))
    (hHex : ∀ s, isLowerHex (selectDigest D alg s) = true) :
    (generate_hash D saltE g1 n1).1 = (generate_hash D saltE g2 n2).1
    ∧ isLowerHex (generate_hash D saltE g1 n1).1 = true := by
  have e1 := generate_hash_fst n1 hc1
  have e2 := generate_hash_fst n2 hc2
  rw [e1, e2, ha1, ha2, hs1, hs2]
  unfold pureHash hashInputOf
  rw [heq]
  exact ⟨rfl, hHex _⟩

/-- Witness for C3: fresh generators, names "Ann " and " ANN". -/
theorem C3_hash_deterministic_witness :
    (generate_hash DW false ⟨"md5", "", []⟩ "Ann ").1
      = (generate_hash DW false ⟨"md5", "", []⟩ " ANN").1
    ∧ isLowerHex (generate_hash DW false ⟨"md5", "", []⟩ "Ann ").1 = true :=
  C3_hash_deterministic DW false "md5" "" ⟨"md5", "", []⟩ ⟨"md5", "", []⟩ "Ann " " ANN"
    (cacheConsistent_nil DW false "md5" "") (cacheConsistent_nil DW false "md5" "")
    rfl rfl rfl rfl (by decide) (fun _ => rfl)

/-- C2: for input ["Ann", "ann", "Bob"] the analyzer reports the single
duplicate group "Ann" with count 2 at 0-based positions [0, 1]; both
occurrences are retained in the cleaned name list; and the app's
hash-strategy generation over that curated list yields two records both
named "Ann" carrying one identical identifier value. -/
theorem C2_duplicate_preservation (D : Digests) (saltE : Bool) (uuids : Nat → String)
    (defaultSalt : String) :
    (process_names ["Ann", "ann", "Bob"]).duplicate_groups = [⟨"Ann", 2, [0, 1]⟩]
    ∧ (process_names ["Ann", "ann", "Bob"]).all_cleaned_names = ["Ann", "Ann", "Bob"]
    ∧ ∃ v w, step_2_generate_ids D saltE uuids defaultSalt "md5"
        (final_names_of (process_names ["Ann", "ann", "Bob"]).all_cleaned_names) IdType.hash
        = Except.ok [⟨"Ann", v⟩, ⟨"Ann", v⟩, ⟨"Bob", w⟩] := by
  refine ⟨by decide, by decide, ?_⟩
  exact ⟨_, _, rfl⟩

/-- C1 counterexample: with an injective digest, the app's hash-strategy
generation run on the duplicate-containing curated list ["Ann", "Ann"]
succeeds yet produces two records sharing one identifier value, so
identifiers are not unique across all records of a generation run. -/
theorem C1_counterexample :
    (step_2_generate_ids D0 false U1 "" "md5" ["Ann", "Ann"] IdType.hash).toOption.isSome = true
    ∧ ¬ List.Nodup (((step_2_generate_ids D0 false U1 "" "md5" ["Ann", "Ann"]
          IdType.hash).toOption.getD []).map Record.ID) := by
  exact ⟨by decide, by decide⟩

/-- C7 counterexample: the normalizer maps "o'connor" to "O'Connor"
(Python title casing treats the apostrophe as a word boundary), which is
not space-token-only title case — that would give "O'connor". -/
theorem C7_counterexample :
    validate_name (clean_name "o\x27connor") = true
    ∧ clean_name "o\x27connor" = "O\x27Connor"
    ∧ specTitleS (clean_name "o\x27connor") ≠ clean_name "o\x27connor" := by
  exact ⟨by decide, by decide, by decide⟩

/-- C9 counterexample: normalization of "ab !" succeeds with result
"Ab " (the trailing "!" is trimmed after whitespace collapsing, leaving a
trailing space), but normalizing that result gives "Ab", so
normalize(normalize(x)) differs from normalize(x). -/
theorem C9_counterexample :
    validate_name (clean_name "ab !") = true
    ∧ validate_name (clean_name (clean_name "ab !")) = true
    ∧ clean_name (clean_name "ab !") ≠ clean_name "ab !" := by
  exact ⟨by decide, by decide, by decide⟩

-- Collision retry loop lemmas ----------------------------------------------

lemma uniqueLoop_all_collide (D : Digests) (saltE : Bool) (alg salt name tok : String)
    (existing : List String) :
    ∀ (fuel counter : Nat) (g : HashGen), cacheConsistent D saltE g →
      g.algorithm = alg → g.salt = salt →
      (∀ j, counter ≤ j → j < counter + fuel →
        pureHash D saltE alg salt (name ++ "_" ++ natToString j) ∈ existing) →
      (uniqueLoop D saltE name existing tok g counter fuel).1 = tok := by
  intro fuel
  induction fuel with
  | zero => intro counter g _ _ _ _; rfl
  | succ fuel ih =>
    intro counter g hc ha hs hall
    have hfst : (generate_hash D saltE g (name ++ "_" ++ natToString counter)).1
        = pureHash D saltE alg salt (name ++ "_" ++ natToString counter) := by
      rw [generate_hash_fst _ hc, ha, hs]
    have hmem : pureHash D saltE alg salt (name ++ "_" ++ natToString counter) ∈ existing :=
      hall counter (Nat.le_refl _) (by omega)
    have hcontains : existing.contains
        (generate_hash D saltE g (name ++ "_" ++ natToString counter)).1 = true := by
      rw [hfst]
      simpa using hmem
    simp only [uniqueLoop, hcontains, if_true]
    exact ih (counter + 1) _ (generate_hash_preserves _ hc)
      (by rw [generate_hash_algorithm, ha]) (by rw [generate_hash_salt, hs])
      (fun j h1 h2 => hall j (by omega) (by omega))

lemma uniqueLoop_found (D : Digests) (saltE : Bool) (alg salt name tok : String)
    (existing : List String) :
    ∀ (fuel counter : Nat) (g : HashGen), cacheConsistent D saltE g →
      g.algorithm = alg → g.salt = salt →
      ∀ k, counter ≤ k → k < counter + fuel →
      (∀ j, counter ≤ j → j < k →
        pureHash D saltE alg salt (name ++ "_" ++ natToString j) ∈ existing) →
      pureHash D saltE alg salt (name ++ "_" ++ natToString k) ∉ existing →
      (uniqueLoop D saltE name existing tok g counter fuel).1
        = pureHash D saltE alg salt (name ++ "_" ++ natToString k) := by
  intro fuel
  induction fuel with
  | zero => intro counter g _ _ _ k h1 h2 _ _; omega
  | succ fuel ih =>
    intro counter g hc ha hs k h1 h2 hbelow hfresh
    have hfst : (generate_hash D saltE g (name ++ "_" ++ natToString counter)).1
        = pureHash D saltE alg salt (name ++ "_" ++ natToString counter) := by
      rw [generate_hash_fst _ hc, ha, hs]
    rcases Nat.eq_or_lt_of_le h1 with hck | hck
    · subst hck
      have hcontains : existing.contains
          (generate_hash D saltE g (name ++ "_" ++ natToString counter)).1 = false := by
        rw [hfst]
        simpa using hfresh
      simp only [uniqueLoop, hcontains, Bool.false_eq_true, if_false]
      exact hfst
    · have hmem : pureHash D saltE alg salt (name ++ "_" ++ natToString counter) ∈ existing :=
        hbelow counter (Nat.le_refl _) hck
      have hcontains : existing.contains
          (generate_hash D saltE g (name ++ "_" ++ natToString counter)).1 = true := by
        rw [hfst]
        simpa using hmem
      simp only [uniqueLoop, hcontains, if_true]
      exact ih (counter + 1) _ (generate_hash_preserves _ hc)
        (by rw [generate_hash_algorithm, ha]) (by rw [generate_hash_salt, hs])
        k (by omega) (by omega) (fun j hj1 hj2 => hbelow j (by omega) hj2) hfresh

/-- C4: in `generate_unique_hash`, when the computed hash of a name is
already among the identifiers produced so far, the generator appends an
incrementing numeric suffix to the name (not to the hash) and rehashes,
trying suffixes 1..1000; the first fresh suffixed hash is returned; if
all 1000 suffixed attempts still collide it falls back to the random
token for that single record; and `create_name_id_mapping` always emits
one record per input name (the batch is never aborted). -/
theorem C4_collision_retry (D : Digests) (saltE : Bool) (g : HashGen)
    (alg salt name tok : String) (existing : List String)
    (hc : cacheConsistent D saltE g) (ha : g.algorithm = alg) (hs : g.salt = salt) :
    (pureHash D saltE alg salt name ∉ existing →
      (generate_unique_hash D saltE g name existing tok).1 = pureHash D saltE alg salt name)
    ∧ (∀ k, 1 ≤ k → k ≤ 1000 → pureHash D saltE alg salt name ∈ existing →
        (∀ j, 1 ≤ j → j < k →
          pureHash D saltE alg salt (name ++ "_" ++ natToString j) ∈ existing) →
        pureHash D saltE alg salt (name ++ "_" ++ natToString k) ∉ existing →
        (generate_unique_hash D saltE g name existing tok).1
          = pureHash D saltE alg salt (name ++ "_" ++ natToString k))
    ∧ (pureHash D saltE alg salt name ∈ existing →
        (∀ j, 1 ≤ j → j ≤ 1000 →
          pureHash D saltE alg salt (name ++ "_" ++ natToString j) ∈ existing) →
        (generate_unique_hash D saltE g name existing tok).1 = tok)
    ∧ (∀ (uuids : Nat → String) (names : List String) (idType : String),
        (create_name_id_mapping D saltE uuids g names idType).1.length = names.length) := by
  have hfst : (generate_hash D saltE g name).1 = pureHash D saltE alg salt name := by
    rw [generate_hash_fst _ hc, ha, hs]
  refine ⟨?_, ?_, ?_, ?_⟩
  · intro hfresh
    have hcontains : existing.contains (generate_hash D saltE g name).1 = false := by
      rw [hfst]
      simpa using hfresh
    simp only [generate_unique_hash, hcontains, Bool.false_eq_true, if_false]
    exact hfst
  · intro k hk1 hk2 hbase hbelow hfresh
    have hcontains : existing.contains (generate_hash D saltE g name).1 = true := by
      rw [hfst]
      simpa using hbase
    simp only [generate_unique_hash, hcontains, if_true]
    exact uniqueLoop_found D saltE alg salt name tok existing 1000 1 _
      (generate_hash_preserves _ hc)
      (by rw [generate_hash_algorithm, ha]) (by rw [generate_hash_salt, hs])
      k hk1 (by omega) (fun j hj1 hj2 => hbelow j hj1 hj2) hfresh
  · intro hbase hall
    have hcontains : existing.contains (generate_hash D saltE g name).1 = true := by
      rw [hfst]
      simpa using hbase
    simp only [generate_unique_hash, hcontains, if_true]
    exact uniqueLoop_all_collide D saltE alg salt name tok existing 1000 1 _
      (generate_hash_preserves _ hc)
      (by rw [generate_hash_algorithm, ha]) (by rw [generate_hash_salt, hs])
      (fun j h1 h2 => hall j h1 (by omega))
  · intro uuids names idType
    exact createLoop_length D saltE uuids idType names g [] 0

/-- Witness for C4: with digest D0 and `existing = ["#mann"]`, the hash of
"Ann" collides, so the first suffixed attempt "Ann_1" is hashed and its
fresh digest is returned. -/
theorem C4_collision_retry_witness :
    (generate_unique_hash D0 false ⟨"md5", "", []⟩ "Ann" ["#mann"] "T").1
      = pureHash D0 false "md5" "" ("Ann" ++ "_" ++ natToString 1) :=
  (C4_collision_retry D0 false ⟨"md5", "", []⟩ "md5" "" "Ann" "T" ["#mann"]
      (cacheConsistent_nil D0 false "md5" "") rfl rfl).2.1 1 (Nat.le_refl 1) (by omega)
    (by decide) (by intro j h1 h2; omega) (by decide)

-- Identifier uniqueness helpers --------------------------------------------

lemma D0_md5_inj : Function.Injective (selectDigest D0 "md5") := by
  intro a b h
  have h2 : "#m" ++ a = "#m" ++ b := by simpa [selectDigest, D0] using h
  exact string_append_left_cancel h2

lemma U1_inj (i j : Nat) (h : U1 i = U1 j) : i = j :=
  pad3_inj h

lemma hashInputOf_inj (saltE : Bool) (salt a b : String) :
    hashInputOf saltE salt a = hashInputOf saltE salt b
      ↔ pyLowerS (pyStripS a) = pyLowerS (pyStripS b) := by
  unfold hashInputOf
  by_cases hs : saltE && salt != ""
  · simp only [hs, if_true]
    constructor
    · exact fun h => string_append_left_cancel h
    · exact fun h => by rw [h]
  · simp only [hs, Bool.false_eq_true, if_false]

/-- C1 (amended): in one app generation run, sequential identifiers are
pairwise distinct; uuid identifiers are pairwise distinct whenever the
drawn tokens are distinct; and under the hash strategy (with a
collision-free digest) two records carry the same identifier exactly when
their names agree after trimming and lower-casing — so duplicate curated
names share an identifier, and uniqueness holds only across records with
distinct trimmed-lowercased names. -/
theorem C1_amended_uniqueness (D : Digests) (uuids : Nat → String) (saltE : Bool)
    (defaultSalt algorithm : String) (names : List String)
    (hD : Function.Injective (selectDigest D algorithm))
    (hU : ∀ i j, i < names.length → j < names.length → uuids i = uuids j → i = j) :
    (∀ recs, step_2_generate_ids D saltE uuids defaultSalt algorithm names IdType.sequential
        = Except.ok recs → (recs.map Record.ID).Nodup)
    ∧ (∀ recs, step_2_generate_ids D saltE uuids defaultSalt algorithm names IdType.uuid
        = Except.ok recs → (recs.map Record.ID).Nodup)
    ∧ (∀ recs, step_2_generate_ids D saltE uuids defaultSalt algorithm names IdType.hash
        = Except.ok recs → ∀ i j, i < names.length → j < names.length →
          ((recs.map Record.ID)[i]? = (recs.map Record.ID)[j]?
            ↔ pyLowerS (pyStripS (names.getD i ""))
              = pyLowerS (pyStripS (names.getD j "")))) := by
  refine ⟨?_, ?_, ?_⟩
  · intro recs hr
    unfold step_2_generate_ids at hr
    by_cases hne : names.isEmpty
    · rw [hne] at hr
      simp at hr
    · rw [Bool.not_eq_true] at hne
      rw [hne] at hr
      simp only [Bool.false_eq_true, if_false, Except.ok.injEq] at hr
      subst hr
      rw [step2Loop_seq_ids]
      refine (List.nodup_range _).map ?_
      intro a b hab
      have h2 : pad3 (0 + a + 1) = pad3 (0 + b + 1) := string_append_left_cancel hab
      have h3 := pad3_inj h2
      omega
  · intro recs hr
    unfold step_2_generate_ids at hr
    by_cases hne : names.isEmpty
    · rw [hne] at hr
      simp at hr
    · rw [Bool.not_eq_true] at hne
      rw [hne] at hr
      simp only [Bool.false_eq_true, if_false, Except.ok.injEq] at hr
      subst hr
      rw [step2Loop_uuid_ids]
      refine List.Nodup.map_on ?_ (List.nodup_range _)
      intro a ha b hb hab
      rw [List.mem_range] at ha hb
      have h3 := hU (0 + a) (0 + b) (by omega) (by omega) hab
      omega
  · intro recs hr i j hi hj
    unfold step_2_generate_ids at hr
    by_cases hne : names.isEmpty
    · rw [hne] at hr
      simp at hr
    · rw [Bool.not_eq_true] at hne
      rw [hne] at hr
      simp only [Bool.false_eq_true, if_false, Except.ok.injEq] at hr
      subst hr
      rw [step2Loop_hash D saltE uuids names _ 0 (cacheConsistent_nil D saltE _ _)]
      simp only [List.map_map, List.getElem?_map, Function.comp]
      rw [List.getElem?_eq_getElem hi, List.getElem?_eq_getElem hj]
      simp only [Option.map_some', Function.comp_apply, Option.some.injEq]
      unfold pureHash
      rw [Function.Injective.eq_iff hD, hashInputOf_inj]
      rw [List.getD_eq_getElem names "" hi, List.getD_eq_getElem names "" hj]

/-- Witness for C1 (amended) at the concrete duplicate-containing curated
list ["Ann", "Ann"] with an injective digest and injective uuid oracle. -/
theorem C1_amended_uniqueness_witness :
    (∀ recs, step_2_generate_ids D0 false U1 "" "md5" ["Ann", "Ann"] IdType.sequential
        = Except.ok recs → (recs.map Record.ID).Nodup)
    ∧ (∀ recs, step_2_generate_ids D0 false U1 "" "md5" ["Ann", "Ann"] IdType.uuid
        = Except.ok recs → (recs.map Record.ID).Nodup)
    ∧ (∀ recs, step_2_generate_ids D0 false U1 "" "md5" ["Ann", "Ann"] IdType.hash
        = Except.ok recs → ∀ i j, i < (["Ann", "Ann"] : List String).length
          → j < (["Ann", "Ann"] : List String).length →
          ((recs.map Record.ID)[i]? = (recs.map Record.ID)[j]?
            ↔ pyLowerS (pyStripS ((["Ann", "Ann"] : List String).getD i ""))
              = pyLowerS (pyStripS ((["Ann", "Ann"] : List String).getD j "")))) :=
  C1_amended_uniqueness D0 U1 false "" "md5" ["Ann", "Ann"] D0_md5_inj
    (fun i j _ _ h => U1_inj i j h)

-- Title casing lemmas ------------------------------------------------------

lemma titleAux_titleAux : ∀ (l : List Char) (b : Bool),
    titleAux b (titleAux b l) = titleAux b l := by
  intro l
  induction l with
  | nil => intro b; rfl
  | cons c rest ih =>
    intro b
    cases b <;> by_cases ha : pyIsAlpha c = true <;>
      simp [titleAux, ha, pyIsAlpha_pyUpperChar, pyIsAlpha_pyLowerChar,
        pyUpperChar_pyUpperChar, pyLowerChar_pyLowerChar, ih]

lemma pyTitleL_idem (l : List Char) : pyTitleL (pyTitleL l) = pyTitleL l :=
  titleAux_titleAux l false

/-- C7 (amended): every accepted normalized result is in Python
`str.title()` form — a letter is uppercase exactly when it follows a
non-letter (so apostrophes and digits also start a new word, e.g.
"O'Connor"), and title casing is idempotent on normalizer output. -/
theorem C7_amended_title (s : String) (h : validate_name (clean_name s) = true) :
    pyTitleS (clean_name s) = clean_name s := by
  by_cases he : s.data.isEmpty
  · unfold clean_name at h
    rw [if_pos he] at h
    exact absurd h (by decide)
  · unfold clean_name
    rw [if_neg he]
    show (⟨pyTitleL (pyTitleL (stripPunct (collapseWs (pyStripL s.data))))⟩ : String) = _
    exact congrArg String.mk (pyTitleL_idem _)

/-- Witness for C7 (amended) at "o'connor". -/
theorem C7_amended_title_witness :
    validate_name (clean_name "o\x27connor") = true
    ∧ pyTitleS (clean_name "o\x27connor") = clean_name "o\x27connor" :=
  ⟨by decide, C7_amended_title "o\x27connor" (by decide)⟩

-- Validation boundary lemmas -----------------------------------------------

lemma dropTrailing_eq_nil_all {p : Char → Bool} : ∀ l, dropTrailing p l = [] →
    ∀ c ∈ l, p c = true := by
  intro l
  induction l with
  | nil => intro _ c hc; cases hc
  | cons a rest ih =>
    intro h c hc
    simp only [dropTrailing] at h
    split at h
    · next hcond =>
      have h1 : (dropTrailing p rest).isEmpty = true := (Bool.and_eq_true _ _ |>.mp hcond).1
      have h2 : p a = true := (Bool.and_eq_true _ _ |>.mp hcond).2
      have h3 : dropTrailing p rest = [] := by simpa [List.isEmpty_iff] using h1
      cases hc with
      | head => exact h2
      | tail _ hm => exact ih h3 c hm
    · cases h

lemma dropWhile_all {p : Char → Bool} : ∀ l : List Char,
    (∀ c ∈ l.dropWhile p, p c = true) → ∀ c ∈ l, p c = true := by
  intro l
  induction l with
  | nil => intro _ c hc; cases hc
  | cons a rest ih =>
    intro h c hc
    by_cases hpa : p a = true
    · rw [List.dropWhile_cons_of_pos hpa] at h
      cases hc with
      | head => exact hpa
      | tail _ hm => exact ih h c hm
    · rw [List.dropWhile_cons_of_neg hpa] at h
      exact h c hc

lemma pyStripL_nil_all {l : List Char} (h : pyStripL l = []) :
    ∀ c ∈ l, pyIsSpace c = true := by
  unfold pyStripL at h
  exact dropWhile_all l (dropTrailing_eq_nil_all _ h)

/-- C8: `_validate_name` rejects a string exactly when it is empty,
shorter than 2 characters, entirely numeric, entirely non-word
characters, or contains no letter; in particular `clean_name "123"` and
`clean_name "!!!"` are rejected while "  john   doe  " normalizes to the
accepted "John Doe". -/
theorem C8_validity_boundary :
    (∀ s : String, validate_name s = false ↔
      (s.data = [] ∨ s.data.length < 2
        ∨ (s.data ≠ [] ∧ ∀ c ∈ s.data, pyIsDigit c = true)
        ∨ (s.data ≠ [] ∧ ∀ c ∈ s.data, pyIsPunct c = true)
        ∨ (∀ c ∈ s.data, pyIsAlpha c = false)))
    ∧ validate_name (clean_name "123") = false
    ∧ validate_name (clean_name "!!!") = false
    ∧ clean_name "  john   doe  " = "John Doe"
    ∧ validate_name "John Doe" = true := by
  refine ⟨?_, by decide, by decide, by decide, by decide⟩
  intro s
  unfold validate_name
  split_ifs with h1 h2 h3 h4 h5
  · simp only [true_iff]
    rw [Bool.or_eq_true] at h1
    rcases h1 with h1 | h1
    · exact Or.inl (by simpa [List.isEmpty_iff] using h1)
    · have hlt : (pyStripL s.data).length < 1 := of_decide_eq_true h1
      have hnil : pyStripL s.data = [] := List.length_eq_zero.mp (by omega)
      refine Or.inr (Or.inr (Or.inr (Or.inr ?_)))
      intro c hc
      exact not_alpha_of_space (pyStripL_nil_all hnil c hc)
  · simp only [true_iff]
    rw [Bool.and_eq_true] at h2
    refine Or.inr (Or.inr (Or.inl ⟨?_, ?_⟩))
    · intro hnil
      rw [hnil] at h2
      simpa using h2.1
    · intro c hc
      exact List.all_eq_true.mp h2.2 c hc
  · simp only [true_iff]
    rw [Bool.and_eq_true] at h3
    refine Or.inr (Or.inr (Or.inr (Or.inl ⟨?_, ?_⟩)))
    · intro hnil
      rw [hnil] at h3
      simpa using h3.1
    · intro c hc
      exact List.all_eq_true.mp h3.2 c hc
  · simp only [true_iff]
    exact Or.inr (Or.inl h4)
  · simp only [true_iff]
    refine Or.inr (Or.inr (Or.inr (Or.inr ?_)))
    intro c hc
    have h5f : s.data.any pyIsAlpha = false := by
      simpa using h5
    have := List.any_eq_false.mp h5f c hc
    simpa using this
  · simp only [Bool.true_eq_false, false_iff]
    intro hrhs
    rcases hrhs with hnil | hlen | ⟨hne, halld⟩ | ⟨hne, hallp⟩ | hnoal
    · exact h1 (by simp [hnil])
    · exact h4 hlen
    · refine h2 ?_
      rw [Bool.and_eq_true]
      refine ⟨?_, List.all_eq_true.mpr halld⟩
      simpa [List.isEmpty_iff] using hne
    · refine h3 ?_
      rw [Bool.and_eq_true]
      refine ⟨?_, List.all_eq_true.mpr hallp⟩
      simpa [List.isEmpty_iff] using hne
    · refine h5 ?_
      have : s.data.any pyIsAlpha = false := by
        rw [List.any_eq_false]
        intro c hc
        simp [hnoal c hc]
      simp [this]

-- End-character lemmas for dropWhile / dropTrailing ------------------------

lemma mem_dropTrailing {p : Char → Bool} : ∀ (l : List Char) (c : Char),
    c ∈ dropTrailing p l → c ∈ l := by
  intro l
  induction l with
  | nil => intro c hc; cases hc
  | cons a rest ih =>
    intro c hc
    simp only [dropTrailing] at hc
    split at hc
    · cases hc
    · cases hc with
      | head => exact List.mem_cons_self a rest
      | tail _ hm => exact List.mem_cons_of_mem a (ih c hm)

lemma dropWhile_head? {p : Char → Bool} : ∀ (l : List Char) (c : Char),
    (l.dropWhile p).head? = some c → p c = false := by
  intro l
  induction l with
  | nil => intro c hc; cases hc
  | cons a rest ih =>
    intro c hc
    by_cases hpa : p a = true
    · rw [List.dropWhile_cons_of_pos hpa] at hc
      exact ih c hc
    · rw [List.dropWhile_cons_of_neg hpa] at hc
      injection hc with h
      subst h
      simpa using hpa

lemma dropTrailing_ne_nil_head? {p : Char → Bool} : ∀ (l : List Char),
    dropTrailing p l ≠ [] → (dropTrailing p l).head? = l.head? := by
  intro l
  cases l with
  | nil => intro h; cases h rfl
  | cons a rest =>
    intro h
    simp only [dropTrailing] at h ⊢
    by_cases hcond : ((dropTrailing p rest).isEmpty && p a) = true
    · rw [if_pos hcond] at h
      exact absurd rfl h
    · rw [if_neg hcond]
      rfl

lemma getLast?_dropTrailing {p : Char → Bool} : ∀ (l : List Char) (c : Char),
    (dropTrailing p l).getLast? = some c → p c = false := by
  intro l
  induction l with
  | nil => intro c hc; cases hc
  | cons a rest ih =>
    intro c hc
    simp only [dropTrailing] at hc
    split at hc
    · cases hc
    · next hcond =>
      cases hr : dropTrailing p rest with
      | nil =>
        rw [hr] at hc hcond
        simp only [List.getLast?_singleton, Option.some.injEq] at hc
        subst hc
        simpa using hcond
      | cons b t =>
        rw [hr] at hc
        rw [List.getLast?_cons_cons] at hc
        rw [← hr] at hc
        exact ih c hc

lemma dropWhile_eq_self_of_head {p : Char → Bool} : ∀ l : List Char,
    (∀ c, l.head? = some c → p c = false) → l.dropWhile p = l := by
  intro l h
  cases l with
  | nil => rfl
  | cons a rest =>
    have ha : p a = false := h a rfl
    rw [List.dropWhile_cons_of_neg (by simp [ha])]

lemma dropTrailing_eq_self_of_last {p : Char → Bool} : ∀ l : List Char,
    (∀ c, l.getLast? = some c → p c = false) → dropTrailing p l = l := by
  intro l
  induction l with
  | nil => intro _; rfl
  | cons a rest ih =>
    intro h
    by_cases hrnil : rest = []
    · subst hrnil
      have ha : p a = false := h a (by simp)
      show (if (dropTrailing p []).isEmpty && p a then [] else a :: dropTrailing p []) = [a]
      simp [dropTrailing, ha]
    · obtain ⟨b, t, rfl⟩ := List.exists_cons_of_ne_nil hrnil
      have hrec : dropTrailing p (b :: t) = b :: t := by
        apply ih
        intro c hc
        apply h
        rw [List.getLast?_cons_cons]
        exact hc
      show (if (dropTrailing p (b :: t)).isEmpty && p a then []
          else a :: dropTrailing p (b :: t)) = a :: b :: t
      rw [hrec]
      simp

lemma length_dropTrailing_le {p : Char → Bool} : ∀ l : List Char,
    (dropTrailing p l).length ≤ l.length := by
  intro l
  induction l with
  | nil => exact Nat.le_refl _
  | cons a rest ih =>
    simp only [dropTrailing]
    split
    · simp
    · simpa using ih

lemma dropWhile_length_le {p : Char → Bool} : ∀ l : List Char,
    (l.dropWhile p).length ≤ l.length := by
  intro l
  induction l with
  | nil => exact Nat.le_refl _
  | cons a rest ih =>
    by_cases hpa : p a = true
    · rw [List.dropWhile_cons_of_pos hpa]
      exact Nat.le_trans ih (by simp)
    · rw [List.dropWhile_cons_of_neg (by simpa using hpa)]

lemma length_dropTrailing_lt_of_last {p : Char → Bool} : ∀ (l : List Char) (c : Char),
    l.getLast? = some c → p c = true → (dropTrailing p l).length < l.length := by
  intro l
  induction l with
  | nil => intro c hc; cases hc
  | cons a rest ih =>
    intro c hc hp
    by_cases hrnil : rest = []
    · subst hrnil
      simp only [List.getLast?_singleton, Option.some.injEq] at hc
      subst hc
      show (if (dropTrailing p []).isEmpty && p a then [] else a :: dropTrailing p []).length < 1
      simp [dropTrailing, hp]
    · obtain ⟨b, t, rfl⟩ := List.exists_cons_of_ne_nil hrnil
      have hc2 : (b :: t).getLast? = some c := by
        rw [List.getLast?_cons_cons] at hc
        exact hc
      have hlt := ih c hc2 hp
      show (if (dropTrailing p (b :: t)).isEmpty && p a then []
          else a :: dropTrailing p (b :: t)).length < (a :: b :: t).length
      by_cases hcond : ((dropTrailing p (b :: t)).isEmpty && p a) = true
      · rw [if_pos hcond]
        simp
      · rw [if_neg hcond]
        simp only [List.length_cons] at hlt ⊢
        omega

lemma dropWhile_eq_self_of_length {p : Char → Bool} : ∀ l : List Char,
    (l.dropWhile p).length = l.length → l.dropWhile p = l := by
  intro l h
  cases l with
  | nil => rfl
  | cons a rest =>
    by_cases hpa : p a = true
    · rw [List.dropWhile_cons_of_pos hpa] at h ⊢
      have := @dropWhile_length_le p rest
      simp only [List.length_cons] at h
      omega
    · rw [List.dropWhile_cons_of_neg (by simpa using hpa)]

lemma strip_self_decomp {l : List Char} (h : pyStripL l = l) :
    l.dropWhile pyIsSpace = l ∧ dropTrailing pyIsSpace l = l := by
  unfold pyStripL at h
  have h1 : (dropTrailing pyIsSpace (l.dropWhile pyIsSpace)).length ≤
      (l.dropWhile pyIsSpace).length := length_dropTrailing_le _
  have h2 : (l.dropWhile pyIsSpace).length ≤ l.length := dropWhile_length_le l
  have h3 : (dropTrailing pyIsSpace (l.dropWhile pyIsSpace)).length = l.length := by rw [h]
  have hdw : l.dropWhile pyIsSpace = l := dropWhile_eq_self_of_length _ (by omega)
  rw [hdw] at h
  exact ⟨hdw, h⟩

lemma head_not_of_dropWhile_eq_self {p : Char → Bool} {l : List Char}
    (h : l.dropWhile p = l) : ∀ c, l.head? = some c → p c = false := by
  intro c hc
  cases l with
  | nil => cases hc
  | cons a rest =>
    injection hc with h2
    by_cases hpa : p a = true
    · rw [List.dropWhile_cons_of_pos hpa] at h
      have := @dropWhile_length_le p rest
      have h3 := congrArg List.length h
      simp only [List.length_cons] at h3
      omega
    · rw [← h2]
      simpa using hpa

lemma last_not_of_dropTrailing_eq_self {p : Char → Bool} {l : List Char}
    (h : dropTrailing p l = l) : ∀ c, l.getLast? = some c → p c = false := by
  intro c hc
  by_cases hp : p c = true
  · have := length_dropTrailing_lt_of_last l c hc hp
    rw [h] at this
    omega
  · simpa using hp

-- Whitespace structure of collapse and title -------------------------------

lemma noTwo_tail : ∀ (a : Bool) (l : List Bool), noTwo (a :: l) = true → noTwo l = true := by
  intro a l h
  cases l with
  | nil => rfl
  | cons b t =>
    have h2 : noTwo (a :: b :: t) = (!(a && b) && noTwo (b :: t)) := rfl
    rw [h2] at h
    exact (Bool.and_eq_true _ _ |>.mp h).2

lemma noDouble_tail {a : Char} {l : List Char} (h : noDouble (a :: l) = true) :
    noDouble l = true := by
  unfold noDouble at h ⊢
  exact noTwo_tail (pyIsSpace a) (l.map pyIsSpace) (by simpa using h)

lemma noDouble_cons_cons {a b : Char} {l : List Char} :
    noDouble (a :: b :: l) = (!(pyIsSpace a && pyIsSpace b) && noDouble (b :: l)) := rfl

lemma noDouble_dropWhile {p : Char → Bool} : ∀ l : List Char,
    noDouble l = true → noDouble (l.dropWhile p) = true := by
  intro l
  induction l with
  | nil => intro h; exact h
  | cons a rest ih =>
    intro h
    by_cases hpa : p a = true
    · rw [List.dropWhile_cons_of_pos hpa]
      exact ih (noDouble_tail h)
    · rw [List.dropWhile_cons_of_neg (by simpa using hpa)]
      exact h

lemma noDouble_dropTrailing {p : Char → Bool} : ∀ l : List Char,
    noDouble l = true → noDouble (dropTrailing p l) = true := by
  intro l
  induction l with
  | nil => intro h; exact h
  | cons a rest ih =>
    intro h
    show noDouble (if (dropTrailing p rest).isEmpty && p a then []
        else a :: dropTrailing p rest) = true
    by_cases hcond : ((dropTrailing p rest).isEmpty && p a) = true
    · rw [if_pos hcond]
      rfl
    · rw [if_neg hcond]
      have hrest := ih (noDouble_tail h)
      cases hr : dropTrailing p rest with
      | nil => rfl
      | cons b t =>
        have hne : dropTrailing p rest ≠ [] := by
          rw [hr]
          simp
        have hh := dropTrailing_ne_nil_head? rest hne
        rw [hr] at hh hrest
        cases rest with
        | nil => simp [dropTrailing] at hr
        | cons b' t' =>
          have hb : b = b' := by
            simpa using hh
          subst hb
          have h3 : (!(pyIsSpace a && pyIsSpace b) && noDouble (b :: t')) = true := by
            rw [← noDouble_cons_cons]
            exact h
          have hpair : (!(pyIsSpace a && pyIsSpace b)) = true :=
            (Bool.and_eq_true _ _ |>.mp h3).1
          rw [noDouble_cons_cons]
          rw [Bool.and_eq_true]
          exact ⟨hpair, hrest⟩

lemma collapse_wsOnly : ∀ (l : List Char) (b : Bool), wsOnly (collapseAux b l) := by
  intro l
  induction l with
  | nil => intro b c hc; cases hc
  | cons a rest ih =>
    intro b c hc hsp
    cases b <;> by_cases hsa : pyIsSpace a = true <;>
      simp only [collapseAux, hsa, if_true, if_false, Bool.false_eq_true,
        Bool.true_eq_false] at hc
    · rcases List.mem_cons.mp hc with hc1 | hc2
      · exact hc1
      · exact ih true c hc2 hsp
    · rcases List.mem_cons.mp hc with hc1 | hc2
      · subst hc1
        rw [hsp] at hsa
        cases hsa rfl
      · exact ih false c hc2 hsp
    · exact ih true c hc hsp
    · rcases List.mem_cons.mp hc with hc1 | hc2
      · subst hc1
        rw [hsp] at hsa
        cases hsa rfl
      · exact ih false c hc2 hsp

lemma collapse_head_not_space : ∀ (l : List Char) (c : Char),
    (collapseAux true l).head? = some c → pyIsSpace c = false := by
  intro l
  induction l with
  | nil => intro c hc; cases hc
  | cons a rest ih =>
    intro c hc
    by_cases hsa : pyIsSpace a = true
    · simp only [collapseAux, hsa, if_true] at hc
      exact ih c hc
    · simp only [collapseAux, hsa, Bool.false_eq_true, if_false] at hc
      injection hc with h2
      rw [← h2]
      simpa using hsa

lemma collapse_noDouble : ∀ (l : List Char) (b : Bool),
    noDouble (collapseAux b l) = true := by
  intro l
  induction l with
  | nil => intro b; rfl
  | cons a rest ih =>
    intro b
    cases b <;> by_cases hsa : pyIsSpace a = true <;>
      simp only [collapseAux, hsa, if_true, if_false, Bool.false_eq_true, Bool.true_eq_false]
    · cases hr : collapseAux true rest with
      | nil => rfl
      | cons d t =>
        have hd := collapse_head_not_space rest d (by rw [hr]; rfl)
        have ht := ih true
        rw [hr] at ht
        rw [noDouble_cons_cons, Bool.and_eq_true]
        refine ⟨?_, ht⟩
        rw [hd]
        simp
    · cases hr : collapseAux false rest with
      | nil => rfl
      | cons d t =>
        have ht := ih false
        rw [hr] at ht
        rw [noDouble_cons_cons, Bool.and_eq_true]
        refine ⟨?_, ht⟩
        have hsa2 : pyIsSpace a = false := by simpa using hsa
        rw [hsa2]
        simp
    · exact ih true
    · cases hr : collapseAux false rest with
      | nil => rfl
      | cons d t =>
        have ht := ih false
        rw [hr] at ht
        rw [noDouble_cons_cons, Bool.and_eq_true]
        refine ⟨?_, ht⟩
        have hsa2 : pyIsSpace a = false := by simpa using hsa
        rw [hsa2]
        simp

lemma collapseAux_eq_self : ∀ (l : List Char) (b : Bool),
    wsOnly l → noDouble l = true →
    (b = true → ∀ c, l.head? = some c → pyIsSpace c = false) →
    collapseAux b l = l := by
  intro l
  induction l with
  | nil => intro b _ _ _; rfl
  | cons a rest ih =>
    intro b hws hnd hhead
    have hwsrest : wsOnly rest := fun x hx hs => hws x (List.mem_cons_of_mem _ hx) hs
    cases b
    · by_cases hsa : pyIsSpace a = true
      · have ha : a = ' ' := hws a (List.mem_cons_self a rest) hsa
        have hheadrest : ∀ c, rest.head? = some c → pyIsSpace c = false := by
          intro c hc
          cases rest with
          | nil => cases hc
          | cons d t =>
            injection hc with h2
            have h3 : (!(pyIsSpace a && pyIsSpace d)) = true :=
              (Bool.and_eq_true _ _ |>.mp (by rw [← noDouble_cons_cons]; exact hnd)).1
            rw [hsa] at h3
            rw [← h2]
            simpa using h3
        simp only [collapseAux, hsa, if_true, Bool.false_eq_true, if_false]
        rw [ih true hwsrest (noDouble_tail hnd) (fun _ => hheadrest), ha]
      · have hsa2 : pyIsSpace a = false := by simpa using hsa
        simp only [collapseAux, hsa2, Bool.false_eq_true, if_false]
        rw [ih false hwsrest (noDouble_tail hnd) (fun habs => absurd habs (by simp))]
    · have hsa2 : pyIsSpace a = false := hhead rfl a rfl
      simp only [collapseAux, hsa2, Bool.false_eq_true, if_false]
      rw [ih false hwsrest (noDouble_tail hnd) (fun habs => absurd habs (by simp))]

lemma titleAux_ne_nil {l : List Char} (b : Bool) (h : l ≠ []) : titleAux b l ≠ [] := by
  cases l with
  | nil => cases h rfl
  | cons c rest => simp [titleAux]

lemma titleAux_map_space : ∀ (l : List Char) (b : Bool),
    (titleAux b l).map pyIsSpace = l.map pyIsSpace := by
  intro l
  induction l with
  | nil => intro b; rfl
  | cons c rest ih =>
    intro b
    by_cases ha : pyIsAlpha c = true <;> cases b <;>
      simp [titleAux, ha, pyIsSpace_pyUpperChar, pyIsSpace_pyLowerChar, ih]

lemma titleAux_map_punct : ∀ (l : List Char) (b : Bool),
    (titleAux b l).map pyIsPunct = l.map pyIsPunct := by
  intro l
  induction l with
  | nil => intro b; rfl
  | cons c rest ih =>
    intro b
    by_cases ha : pyIsAlpha c = true <;> cases b <;>
      simp [titleAux, ha, pyIsPunct_pyUpperChar, pyIsPunct_pyLowerChar, ih]

lemma wsOnly_titleAux : ∀ (l : List Char) (b : Bool), wsOnly l → wsOnly (titleAux b l) := by
  intro l
  induction l with
  | nil => intro b _ d hd; cases hd
  | cons c rest ih =>
    intro b hws d hd hsp
    have hwsrest : wsOnly rest := fun x hx hs => hws x (List.mem_cons_of_mem _ hx) hs
    simp only [titleAux] at hd
    rcases List.mem_cons.mp hd with hd1 | hd2
    · subst hd1
      by_cases hsc : pyIsSpace c = true
      · have hna : pyIsAlpha c = false := not_alpha_of_space hsc
        have hcz : c = ' ' := hws c (List.mem_cons_self c rest) hsc
        simp only [hna, Bool.false_eq_true, if_false]
        exact hcz
      · exfalso
        by_cases ha : pyIsAlpha c = true
        · cases b <;>
            simp only [ha, eq_self_iff_true, if_true, Bool.false_eq_true, if_false] at hsp
          · rw [pyIsSpace_pyUpperChar] at hsp
            exact hsc hsp
          · rw [pyIsSpace_pyLowerChar] at hsp
            exact hsc hsp
        · simp only [ha, Bool.false_eq_true, if_false] at hsp
          exact hsc hsp
    · exact ih (pyIsAlpha c) hwsrest d hd2 hsp

lemma mem_dropWhile_imp {p : Char → Bool} : ∀ (l : List Char) (c : Char),
    c ∈ l.dropWhile p → c ∈ l := by
  intro l
  induction l with
  | nil => intro c hc; cases hc
  | cons a rest ih =>
    intro c hc
    by_cases hpa : p a = true
    · rw [List.dropWhile_cons_of_pos hpa] at hc
      exact List.mem_cons_of_mem a (ih c hc)
    · rw [List.dropWhile_cons_of_neg (by simpa using hpa)] at hc
      exact hc

/-- C9 (amended): normalization is idempotent on every raw string whose
normalized result is accepted and carries no leading or trailing
whitespace; outer-punctuation trimming happens after whitespace
collapsing, so a space adjacent to trimmed punctuation can survive at an
end of the result ("ab !" ↦ "Ab "), and exactly those results shrink
under re-normalization. -/
theorem C9_amended_idempotent (s : String)
    (hv : validate_name (clean_name s) = true)
    (hstrip : pyStripS (clean_name s) = clean_name s) :
    clean_name (clean_name s) = clean_name s := by
  by_cases he : s.data.isEmpty
  · unfold clean_name at hv
    rw [if_pos he] at hv
    exact absurd hv (by decide)
  · set w : List Char := collapseWs (pyStripL s.data) with hw
    set z : List Char := stripPunct w with hz
    set y : List Char := pyTitleL z with hy
    have hcy : clean_name s = ⟨y⟩ := by
      unfold clean_name
      rw [if_neg he, hy, hz, hw]
    have hyne : y ≠ [] := by
      intro hnil
      rw [hcy, hnil] at hv
      exact absurd hv (by decide)
    have hstripL : pyStripL y = y := by
      have h2 := congrArg String.data hstrip
      rw [hcy] at h2
      exact h2
    have hwsw : wsOnly w := by
      rw [hw]
      unfold collapseWs
      exact collapse_wsOnly _ false
    have hndw : noDouble w = true := by
      rw [hw]
      unfold collapseWs
      exact collapse_noDouble _ false
    have hwsz : wsOnly z := by
      rw [hz]
      intro x hx hs
      unfold stripPunct at hx
      exact hwsw x (mem_dropWhile_imp _ x (mem_dropTrailing _ x hx)) hs
    have hndz : noDouble z = true := by
      rw [hz]
      unfold stripPunct
      exact noDouble_dropTrailing _ (noDouble_dropWhile _ hndw)
    have hwsy : wsOnly y := by
      rw [hy]
      unfold pyTitleL
      exact wsOnly_titleAux z false hwsz
    have hndy : noDouble y = true := by
      rw [hy]
      unfold pyTitleL noDouble
      rw [titleAux_map_space]
      unfold noDouble at hndz
      exact hndz
    have hdec := strip_self_decomp hstripL
    have hcoll : collapseWs y = y := by
      unfold collapseWs
      exact collapseAux_eq_self y false hwsy hndy (fun habs => absurd habs (by simp))
    have hzne : z ≠ [] := by
      intro hnil
      exact hyne (by rw [hy, hnil]; rfl)
    have hheadz : ∀ c, z.head? = some c → pyIsPunct c = false := by
      intro c hc
      rw [hz] at hc
      unfold stripPunct at hc
      have hne3 : dropTrailing pyIsPunct (w.dropWhile pyIsPunct) ≠ [] := by
        intro habs
        apply hzne
        rw [hz]
        unfold stripPunct
        exact habs
      rw [dropTrailing_ne_nil_head? _ hne3] at hc
      exact dropWhile_head? _ c hc
    have hlastz : ∀ c, z.getLast? = some c → pyIsPunct c = false := by
      intro c hc
      rw [hz] at hc
      unfold stripPunct at hc
      exact getLast?_dropTrailing _ c hc
    have hmapP : y.map pyIsPunct = z.map pyIsPunct := by
      rw [hy]
      unfold pyTitleL
      exact titleAux_map_punct z false
    have hheadyP : ∀ c, y.head? = some c → pyIsPunct c = false := by
      intro c hc
      have h1 : (y.map pyIsPunct).head? = (z.map pyIsPunct).head? := by rw [hmapP]
      rw [List.head?_map, List.head?_map, hc] at h1
      cases hzh : z.head? with
      | none =>
        rw [hzh] at h1
        cases h1
      | some d =>
        rw [hzh] at h1
        simp only [Option.map_some', Option.some.injEq] at h1
        rw [h1]
        exact hheadz d hzh
    have hlastyP : ∀ c, y.getLast? = some c → pyIsPunct c = false := by
      intro c hc
      have h1 : (y.map pyIsPunct).getLast? = (z.map pyIsPunct).getLast? := by rw [hmapP]
      rw [List.getLast?_map, List.getLast?_map, hc] at h1
      cases hzh : z.getLast? with
      | none =>
        rw [hzh] at h1
        cases h1
      | some d =>
        rw [hzh] at h1
        simp only [Option.map_some', Option.some.injEq] at h1
        rw [h1]
        exact hlastz d hzh
    have hsp_y : stripPunct y = y := by
      unfold stripPunct
      rw [dropWhile_eq_self_of_head y hheadyP]
      exact dropTrailing_eq_self_of_last y hlastyP
    rw [hcy]
    unfold clean_name
    rw [if_neg (by simpa using hyne)]
    show (⟨pyTitleL (stripPunct (collapseWs (pyStripL y)))⟩ : String) = ⟨y⟩
    rw [hstripL, hcoll, hsp_y, hy]
    exact congrArg String.mk (pyTitleL_idem z)

/-- Witness for C9 (amended) at "  john   doe  ". -/
theorem C9_amended_idempotent_witness :
    validate_name (clean_name "  john   doe  ") = true
    ∧ pyStripS (clean_name "  john   doe  ") = clean_name "  john   doe  "
    ∧ clean_name (clean_name "  john   doe  ") = clean_name "  john   doe  " :=
  ⟨by decide, by decide, C9_amended_idempotent "  john   doe  " (by decide) (by decide)⟩
